import Mathlib

/-!
# Verification of `src/sync.py` (MAllport/sync_folders)

A shallow embedding of the one-way folder synchronizer in `src/sync.py`.

Modelling conventions:

* A relative path is a list of path segments (`Path := List String`); the
  root's own relative path is the empty list.  `len(Path(fp).parents)` in the
  Python code equals the number of segments of the relative path `fp`, which
  is `List.length` here (`pathDepth`).
* A directory listing (the filesystem content below one root) is a list of
  `(relative path, is_directory)` pairs (`FsListing`).
* `glob(f"{root}/**", recursive=True)` (line 26/27) returns the root itself
  first and then every entry below the root whose path has no component
  beginning with a dot, in walk order: CPython's recursive glob expands `**`
  to the empty string first (yielding the root), and by default its wildcards
  never match names that start with `.` (the code comment on lines 28-29 notes
  that the `include_hidden` flag is not used).  `globRecursive` models this;
  `enumerateRel` models the `[1:]` slice composed with `os.path.relpath`.
* `list(setA - setB)` / `list(setA.intersection(setB))` (lines 44-47) produce
  lists whose membership is the set difference / intersection and whose
  elements are pairwise distinct; CPython's set iteration order is
  unspecified, so the embedding fixes first-enumeration order via
  `dedup`/`filter`.  No theorem below depends on the order inside a single
  action list beyond what Python guarantees.
* The five filesystem primitives used by the apply phases
  (`os.makedirs`, `shutil.copy2`, `shutil.copytree(dirs_exist_ok=True)`,
  `os.remove`, `os.rmdir`) become the constructors of `FsOp`.  Their effect
  on the *glob-visible set of destination relative paths* is `applyOp`:
  `makedirs`/`copy2` make the path exist, `copytree p` makes `p` and every
  enumerated source path below `p` exist (merging: `dirs_exist_ok=True`
  unions into an existing tree), `remove`/`rmdir` delete the path.
-/

namespace SyncFolders

/-- A relative path, as its list of segments (forward-slash separated in the
Python code).  The root itself is `[]`. -/
abbrev Path := List String

/-- Depth key `len(Path(fp).parents)`: the depth of a relative path = its number of
segments (`"a.txt"` has depth 1, `"b/c.txt"` has depth 2). -/
def pathDepth (p : Path) : Nat := p.length

/-- A segment is hidden when its name begins with a dot (`glob` treats a
leading dot specially: its wildcards never match such a name). -/
def hiddenSeg (s : String) : Bool :=
  match s.data with
  | [] => false
  | c :: _ => c == '.'

/-- A path is hidden when any of its segments is hidden; `glob`'s default
wildcards match none of these (and do not descend into hidden directories). -/
def hiddenPath (p : Path) : Bool := p.any hiddenSeg

/-- The filesystem content below one root: each entry is its relative path
together with its `is_directory` flag. -/
abbrev FsListing := List (Path × Bool)

/-- Result of `glob(f"{root}/**", recursive=True)` (lines 26-27), already made relative
to the root: the root itself (relative path `[]`) comes first, followed by
every entry of the listing whose path has no hidden component, in walk
order. -/
def globRecursive (fs : FsListing) : List Path :=
  [] :: (fs.filter (fun e => !hiddenPath e.1)).map Prod.fst

/-- The `[1:]` slice on the glob result (lines 26-27): the root itself is
dropped, and what remains is the enumeration the classification works on. -/
def enumerateRel (fs : FsListing) : List Path :=
  (globRecursive fs).drop 1

/-- The `actions` dictionary of `synchronize_folders` (lines 23 and 44-47).
The field order `created`, `removed`, `copied` is the dict insertion order of
lines 44, 45, 46, which is also the iteration order of `actions.keys()` used
by `log_and_print`. -/
structure Actions where
  created : List Path
  removed : List Path
  copied : List Path
deriving DecidableEq

/-- Lines 42-47: build the three action lists from the two enumerations.
`created` is `set(orig) - set(sync)`, `removed` is `set(sync) - set(orig)`,
`copied` is the intersection; each `list(...)` is deduplicated and ordered by
first enumeration occurrence (Python's set order is unspecified). -/
def synchronize_actions (relOrig relSync : List Path) : Actions where
  created := relOrig.dedup.filter (fun p => decide (p ∉ relSync))
  removed := relSync.dedup.filter (fun p => decide (p ∉ relOrig))
  copied := relOrig.dedup.filter (fun p => decide (p ∈ relSync))

/-- The filesystem primitives invoked by the apply phases of
`synchronize_folders`: `os.makedirs` (line 61), `shutil.copy2` (lines 63 and
80, the metadata-preserving file copy), `shutil.copytree(..., dirs_exist_ok =
True)` (line 78, the recursive merging directory overwrite), `os.remove`
(line 100) and `os.rmdir` (line 102, which only succeeds on an empty
directory). -/
inductive FsOp where
  | makedirs (p : Path)
  | copy2 (p : Path)
  | copytree (p : Path)
  | remove (p : Path)
  | rmdir (p : Path)
deriving DecidableEq

/-- The relative path an operation acts on. -/
def opPath : FsOp → Path
  | .makedirs p => p
  | .copy2 p => p
  | .copytree p => p
  | .remove p => p
  | .rmdir p => p

/-- Ascending sort by depth: `sorted(actions["created"], key=lambda fp:
len(Path(fp).parents))` (lines 52-53). -/
def sortAsc (l : List Path) : List Path :=
  l.insertionSort (fun a b => pathDepth a ≤ pathDepth b)

/-- Descending sort by depth: `sorted(actions["removed"], reverse=True,
key=lambda fp: len(Path(fp).parents))` (lines 91-92). -/
def sortDesc (l : List Path) : List Path :=
  l.insertionSort (fun a b => pathDepth b ≤ pathDepth a)

/-- The create phase (lines 52-63): created paths in ascending depth order;
a source directory becomes `makedirs`, anything else a `copy2`.
`isDirSrc` is `os.path.isdir(src_path)` (line 60). -/
def createOps (isDirSrc : Path → Bool) (created : List Path) : List FsOp :=
  (sortAsc created).map (fun p => if isDirSrc p then FsOp.makedirs p else FsOp.copy2 p)

/-- The copy phase (lines 69-80): only copied paths of depth 1 (the generator
filter `len(Path(fp).parents) == 1` on lines 69-70); a source directory
becomes `copytree` with `dirs_exist_ok=True`, a file a `copy2` (line 77-80). -/
def copyOps (isDirSrc : Path → Bool) (copied : List Path) : List FsOp :=
  (copied.filter (fun p => pathDepth p == 1)).map
    (fun p => if isDirSrc p then FsOp.copytree p else FsOp.copy2 p)

/-- The remove phase (lines 91-102): removed paths in descending depth order;
`if not path.isdir(dst_path): remove else rmdir` (lines 99-102).
`isDirDst` is `os.path.isdir(dst_path)`. -/
def removeOps (isDirDst : Path → Bool) (removed : List Path) : List FsOp :=
  (sortDesc removed).map (fun p => if isDirDst p then FsOp.rmdir p else FsOp.remove p)

/-- The full operation sequence of one pass of `synchronize_folders`, in
program order: creates (lines 52-63), then copies (lines 69-80), then
removals (lines 91-102). -/
def passOps (isDirSrc isDirDst : Path → Bool) (a : Actions) : List FsOp :=
  createOps isDirSrc a.created ++ copyOps isDirSrc a.copied ++ removeOps isDirDst a.removed

/-- Whether `q` is a prefix of `p` as a segment sequence: `q` names `p` itself or a
directory that (transitively) contains `p`. -/
def isAncestorOrSelf : Path → Path → Bool
  | [], _ => true
  | _ :: _, [] => false
  | a :: q, b :: p => a == b && isAncestorOrSelf q p

/-- Everything the source enumeration has at or below `p`: the subtree that
`shutil.copytree` replicates under the destination. -/
def sourceUnder (s : Finset Path) (p : Path) : Finset Path :=
  s.filter (fun q => isAncestorOrSelf p q = true)

/-- The effect of one primitive on the glob-visible set of destination
relative paths.  `src` is the enumerated source set (needed by `copytree`,
which replicates the source subtree; `dirs_exist_ok=True` merges, so it is a
union). -/
def applyOp (src : Finset Path) (st : Finset Path) : FsOp → Finset Path
  | .makedirs p => insert p st
  | .copy2 p => insert p st
  | .copytree p => st ∪ insert p (sourceUnder src p)
  | .remove p => st.erase p
  | .rmdir p => st.erase p

/-- Run a sequence of primitives left to right, like the three `for` loops of
`synchronize_folders`. -/
def runOps (src : Finset Path) : List FsOp → Finset Path → Finset Path
  | [], st => st
  | op :: rest, st => runOps src rest (applyOp src st op)

/-- The glob-visible destination path set after one full pass of
`synchronize_folders` on enumerations `relOrig` / `relSync`. -/
def destAfterPass (relOrig relSync : List Path) (isDirSrc isDirDst : Path → Bool) :
    Finset Path :=
  runOps relOrig.toFinset
    (passOps isDirSrc isDirDst (synchronize_actions relOrig relSync))
    relSync.toFinset

/-- The iteration of line 91: `sorted(actions["removed"], reverse=True, key=depth)`. -/
def removedSorted (relOrig relSync : List Path) : List Path :=
  sortDesc (synchronize_actions relOrig relSync).removed

/-- Predicate `prefixClosed l`: the enumeration invariant of a filesystem walk — for
every listed path, every nonempty proper prefix of it (an ancestor
directory) is listed as well. -/
def prefixClosed (l : List Path) : Prop :=
  ∀ p ∈ l, ∀ n, n < p.length → n ≠ 0 → p.take n ∈ l

instance (l : List Path) : Decidable (prefixClosed l) := by
  unfold prefixClosed; infer_instance

/-! ## The logger (lines 107-126)

`log_and_print` walks `actions.keys()` — for a Python ≥ 3.7 dict that is the
insertion order of lines 44-46: `created`, `removed`, `copied` — and for
each path in the corresponding list appends one line to the file and echoes
it to stdout.  The timestamp `datetime.now()` is an abstract string `now`
here; `action_key.capitalize()` yields `Created` / `Removed` / `Copied`.
A file's content is its list of lines. -/

/-- Rendering of `os.path.relpath` output for a segment list: segments joined by the
separator. -/
def pathToString (p : Path) : String := String.intercalate "/" p

/-- One log line (lines 110-113):
`f"{now} {action_key.capitalize()} file with file path {action_path}"`. -/
def actionLine (now : String) (key : String) (p : Path) : String :=
  now ++ " " ++ key ++ " file with file path " ++ pathToString p

/-- The lines produced by `log_and_print` (lines 107-114), in dict iteration
order: all `created`, then all `removed`, then all `copied` (the full list —
the depth-1 generator of lines 69-70 never modified `actions["copied"]`). -/
def logLines (now : String) (a : Actions) : List String :=
  a.created.map (actionLine now "Created") ++
    a.removed.map (actionLine now "Removed") ++
      a.copied.map (actionLine now "Copied")

/-- Modelled from the spec (§6, "One line per action, ordered: all created,
then all copied (root-only subset), then all removed"): the line sequence the
spec asserts, for comparison with `logLines`. -/
def specLogLines (now : String) (a : Actions) : List String :=
  a.created.map (actionLine now "Created") ++
    (a.copied.filter (fun p => pathDepth p == 1)).map (actionLine now "Copied") ++
      a.removed.map (actionLine now "Removed")

/-- Effect of `f.write(line)` on a file opened in append mode. -/
def writeLine (file : List String) (line : String) : List String := file ++ [line]

/-- Effect of `log_and_print(actions, f)` on an already opened file: append one line per
action as it is recorded. -/
def log_and_print (now : String) (a : Actions) (file : List String) : List String :=
  (logLines now a).foldl writeLine file

/-- Function `log_and_print_actions` (lines 117-126): `open(..., "w")` immediately
closed discards the previous content of `sync_log.txt`; the file is then
reopened with `open(..., "a")` and the pass's lines are appended.  `prev` is
the file content before the call. -/
def log_and_print_actions (now : String) (a : Actions) (_prev : List String) :
    List String :=
  log_and_print now a []

/-! ## Fallible runs and the scheduling loop (lines 22-104 and 129-140)

`synchronize_folders` contains no `try`/`except`: the first filesystem
primitive that raises aborts the pass, and no later operation of the pass
runs.  `synchronization_loop` contains no `try`/`except` either, so the
exception ends the loop — and, it being the top frame, the process.  The
embedding makes each primitive fallible through an error oracle
`fails : FsOp → Option String` and threads `Except`, which short-circuits
exactly because nothing catches. -/

/-- One primitive, fallible: if the oracle says this operation raises, the
error propagates; otherwise the operation has its `applyOp` effect. -/
def applyOpE (src : Finset Path) (fails : FsOp → Option String) (st : Finset Path)
    (op : FsOp) : Except String (Finset Path) :=
  match fails op with
  | some e => Except.error e
  | none => Except.ok (applyOp src st op)

/-- The three apply loops with fallible primitives: stop at the first error
(nothing catches it inside `synchronize_folders`). -/
def runOpsE (src : Finset Path) (fails : FsOp → Option String) :
    List FsOp → Finset Path → Except String (Finset Path)
  | [], st => Except.ok st
  | op :: rest, st =>
    match applyOpE src fails st op with
    | Except.error e => Except.error e
    | Except.ok st2 => runOpsE src fails rest st2

/-- Loop `synchronization_loop` (lines 129-140), fuel-indexed: starting at pass
number `i` with `n` iterations of budget, run pass `i`, and continue with
pass `i + 1` only when it did not raise (the `while True:` body has no
handler around `synchronize_folders`). -/
def loopRun (passes : Nat → Except String Unit) : Nat → Nat → Except String Unit
  | _, 0 => Except.ok ()
  | i, Nat.succ n =>
    match passes i with
    | Except.error e => Except.error e
    | Except.ok _ => loopRun passes (i + 1) n

/-! ## Helper lemmas about path prefixes and depth -/

theorem isAncestorOrSelf_iff {q p : Path} :
    isAncestorOrSelf q p = true ↔ q.length ≤ p.length ∧ p.take q.length = q := by
  induction q generalizing p with
  | nil => simp [isAncestorOrSelf]
  | cons a q ih =>
    cases p with
    | nil => simp [isAncestorOrSelf]
    | cons b p =>
      simp only [isAncestorOrSelf, Bool.and_eq_true, beq_iff_eq, ih, List.length_cons,
        List.take_succ_cons, List.cons.injEq, Nat.succ_le_succ_iff]
      tauto

theorem length_lt_of_proper_ancestor {q p : Path} (h : isAncestorOrSelf q p = true)
    (hne : q ≠ p) : q.length < p.length := by
  rcases isAncestorOrSelf_iff.1 h with ⟨hle, htake⟩
  rcases Nat.lt_or_ge q.length p.length with hlt | hge
  · exact hlt
  · exact absurd ((List.take_of_length_le hge).symm.trans htake).symm hne

theorem take_length_of_ancestor {q p : Path} (h : isAncestorOrSelf q p = true) :
    p.take q.length = q := (isAncestorOrSelf_iff.1 h).2

/-! ## Basic facts about the classification (lines 42-47) -/

theorem mem_created {relOrig relSync : List Path} {p : Path} :
    p ∈ (synchronize_actions relOrig relSync).created ↔ p ∈ relOrig ∧ p ∉ relSync := by
  simp [synchronize_actions, List.mem_filter, List.mem_dedup]

theorem mem_removed {relOrig relSync : List Path} {p : Path} :
    p ∈ (synchronize_actions relOrig relSync).removed ↔ p ∈ relSync ∧ p ∉ relOrig := by
  simp [synchronize_actions, List.mem_filter, List.mem_dedup]

theorem mem_copied {relOrig relSync : List Path} {p : Path} :
    p ∈ (synchronize_actions relOrig relSync).copied ↔ p ∈ relOrig ∧ p ∈ relSync := by
  simp [synchronize_actions, List.mem_filter, List.mem_dedup]

theorem nodup_created (relOrig relSync : List Path) :
    (synchronize_actions relOrig relSync).created.Nodup :=
  (List.nodup_dedup relOrig).filter _

theorem nodup_removed (relOrig relSync : List Path) :
    (synchronize_actions relOrig relSync).removed.Nodup :=
  (List.nodup_dedup relSync).filter _

theorem created_toFinset (relOrig relSync : List Path) :
    (synchronize_actions relOrig relSync).created.toFinset =
      relOrig.toFinset \ relSync.toFinset := by
  ext p; simp [mem_created]

theorem removed_toFinset (relOrig relSync : List Path) :
    (synchronize_actions relOrig relSync).removed.toFinset =
      relSync.toFinset \ relOrig.toFinset := by
  ext p; simp [mem_removed]

theorem copied_toFinset (relOrig relSync : List Path) :
    (synchronize_actions relOrig relSync).copied.toFinset =
      relOrig.toFinset ∩ relSync.toFinset := by
  ext p; simp [mem_copied]

/-- C1: For every pass of `synchronize_folders`, the computed action sets
are exactly the set differences and intersection of the two enumerated
relative-path sets: `created = source \ destination`,
`removed = destination \ source`, `copied = source ∩ destination`; the three
sets are pairwise disjoint and their union is the union of the two enumerated
sets (lines 42-47 of `src/sync.py`). -/
theorem created_removed_copied_partition (relOrig relSync : List Path) :
    (synchronize_actions relOrig relSync).created.toFinset =
        relOrig.toFinset \ relSync.toFinset ∧
    (synchronize_actions relOrig relSync).removed.toFinset =
        relSync.toFinset \ relOrig.toFinset ∧
    (synchronize_actions relOrig relSync).copied.toFinset =
        relOrig.toFinset ∩ relSync.toFinset ∧
    Disjoint (synchronize_actions relOrig relSync).created.toFinset
        (synchronize_actions relOrig relSync).removed.toFinset ∧
    Disjoint (synchronize_actions relOrig relSync).created.toFinset
        (synchronize_actions relOrig relSync).copied.toFinset ∧
    Disjoint (synchronize_actions relOrig relSync).removed.toFinset
        (synchronize_actions relOrig relSync).copied.toFinset ∧
    (synchronize_actions relOrig relSync).created.toFinset ∪
        (synchronize_actions relOrig relSync).removed.toFinset ∪
        (synchronize_actions relOrig relSync).copied.toFinset =
      relOrig.toFinset ∪ relSync.toFinset := by
  refine ⟨created_toFinset _ _, removed_toFinset _ _, copied_toFinset _ _, ?_, ?_, ?_, ?_⟩
  · rw [Finset.disjoint_left]
    intro p hp hq
    rw [created_toFinset] at hp; rw [removed_toFinset] at hq
    simp only [Finset.mem_sdiff] at hp hq
    exact hp.2 hq.1
  · rw [Finset.disjoint_left]
    intro p hp hq
    rw [created_toFinset] at hp; rw [copied_toFinset] at hq
    simp only [Finset.mem_sdiff] at hp
    simp only [Finset.mem_inter] at hq
    exact hp.2 hq.2
  · rw [Finset.disjoint_left]
    intro p hp hq
    rw [removed_toFinset] at hp; rw [copied_toFinset] at hq
    simp only [Finset.mem_sdiff] at hp
    simp only [Finset.mem_inter] at hq
    exact hp.2 hq.1
  · ext p
    simp only [created_toFinset, removed_toFinset, copied_toFinset, Finset.mem_union,
      Finset.mem_sdiff, Finset.mem_inter]
    tauto


/-! ## Enumeration (lines 26-31): hidden entries and the dropped root -/

theorem mem_enumerateRel_iff {fs : FsListing} {p : Path} :
    p ∈ enumerateRel fs ↔ (∃ b, (p, b) ∈ fs) ∧ hiddenPath p = false := by
  simp only [enumerateRel, globRecursive, List.drop_succ_cons, List.drop_zero, List.mem_map,
    List.mem_filter, Bool.not_eq_eq_eq_not, Bool.not_true]
  constructor
  · rintro ⟨⟨q, b⟩, ⟨hmem, hhid⟩, rfl⟩
    exact ⟨⟨b, hmem⟩, hhid⟩
  · rintro ⟨⟨b, hmem⟩, hhid⟩
    exact ⟨(p, b), ⟨hmem, hhid⟩, rfl⟩

/-- C3 counterexample: The enumeration does *not* list every entry:
for a root containing the hidden file `.h` and the directory `a`, the
enumeration built from `glob(..., recursive=True)[1:]` (lines 26-27) contains
`a` but not `.h`, even though `.h` is present under the root — `glob`'s
default pattern matching filters out names beginning with a dot (as the
comment on lines 28-29 concedes). -/
theorem hidden_entry_not_enumerated :
    ([".h"], false) ∈ ([([".h"], false), (["a"], true)] : FsListing) ∧
    ["a"] ∈ enumerateRel [([".h"], false), (["a"], true)] ∧
    [".h"] ∉ enumerateRel [([".h"], false), (["a"], true)] := by decide

/-- C3 amended: For every source or destination tree, the enumeration
phase lists exactly the entries under the root whose relative path has no
component beginning with a dot: every non-hidden file and directory is
listed, and every entry with a hidden component is filtered out by name. -/
theorem enumerateRel_characterization (fs : FsListing) (p : Path) :
    p ∈ enumerateRel fs ↔ (∃ b, (p, b) ∈ fs) ∧ hiddenPath p = false :=
  mem_enumerateRel_iff

theorem opPath_ite (f : Path → Bool) (p : Path) (o₁ o₂ : Path → FsOp)
    (h₁ : ∀ q, opPath (o₁ q) = q) (h₂ : ∀ q, opPath (o₂ q) = q) :
    opPath (if f p then o₁ p else o₂ p) = p := by
  cases f p <;> simp [h₁, h₂]

theorem sortAsc_perm (l : List Path) : (sortAsc l).Perm l :=
  List.perm_insertionSort _ l

theorem sortDesc_perm (l : List Path) : (sortDesc l).Perm l :=
  List.perm_insertionSort _ l

theorem opPath_mem_createOps {f : Path → Bool} {l : List Path} {op : FsOp}
    (h : op ∈ createOps f l) : opPath op ∈ l := by
  rcases List.mem_map.1 h with ⟨p, hp, rfl⟩
  rw [opPath_ite f p FsOp.makedirs FsOp.copy2 (fun _ => rfl) (fun _ => rfl)]
  exact (sortAsc_perm l).mem_iff.1 hp

theorem opPath_mem_copyOps {f : Path → Bool} {l : List Path} {op : FsOp}
    (h : op ∈ copyOps f l) : opPath op ∈ l := by
  rcases List.mem_map.1 h with ⟨p, hp, rfl⟩
  rw [opPath_ite f p FsOp.copytree FsOp.copy2 (fun _ => rfl) (fun _ => rfl)]
  exact (List.mem_filter.1 hp).1

theorem opPath_mem_removeOps {g : Path → Bool} {l : List Path} {op : FsOp}
    (h : op ∈ removeOps g l) : opPath op ∈ l := by
  rcases List.mem_map.1 h with ⟨p, hp, rfl⟩
  rw [opPath_ite g p FsOp.rmdir FsOp.remove (fun _ => rfl) (fun _ => rfl)]
  exact (sortDesc_perm l).mem_iff.1 hp

/-- C10: For every pass, the first element of each recursive glob result
is the root itself and the `[1:]` slice drops it, so the root's own relative
path appears in neither enumeration, never appears in the `created`,
`removed` or `copied` list, and no filesystem operation of the pass targets
a root. -/
theorem root_never_acted_on (fsOrig fsSync : FsListing) (isDirSrc isDirDst : Path → Bool)
    (hO : ∀ e ∈ fsOrig, e.1 ≠ []) (hS : ∀ e ∈ fsSync, e.1 ≠ []) :
    (globRecursive fsOrig).head? = some [] ∧
    (globRecursive fsSync).head? = some [] ∧
    [] ∉ enumerateRel fsOrig ∧
    [] ∉ enumerateRel fsSync ∧
    [] ∉ (synchronize_actions (enumerateRel fsOrig) (enumerateRel fsSync)).created ∧
    [] ∉ (synchronize_actions (enumerateRel fsOrig) (enumerateRel fsSync)).removed ∧
    [] ∉ (synchronize_actions (enumerateRel fsOrig) (enumerateRel fsSync)).copied ∧
    ∀ op ∈ passOps isDirSrc isDirDst
        (synchronize_actions (enumerateRel fsOrig) (enumerateRel fsSync)),
      opPath op ≠ [] := by
  have hO' : [] ∉ enumerateRel fsOrig := by
    intro h
    rcases mem_enumerateRel_iff.1 h with ⟨⟨b, hb⟩, -⟩
    exact hO _ hb rfl
  have hS' : [] ∉ enumerateRel fsSync := by
    intro h
    rcases mem_enumerateRel_iff.1 h with ⟨⟨b, hb⟩, -⟩
    exact hS _ hb rfl
  have hc : [] ∉ (synchronize_actions (enumerateRel fsOrig) (enumerateRel fsSync)).created :=
    fun h => hO' (mem_created.1 h).1
  have hr : [] ∉ (synchronize_actions (enumerateRel fsOrig) (enumerateRel fsSync)).removed :=
    fun h => hS' (mem_removed.1 h).1
  have hp : [] ∉ (synchronize_actions (enumerateRel fsOrig) (enumerateRel fsSync)).copied :=
    fun h => hO' (mem_copied.1 h).1
  refine ⟨rfl, rfl, hO', hS', hc, hr, hp, ?_⟩
  intro op hop hnil
  rcases List.mem_append.1 hop with hop | hop
  · rcases List.mem_append.1 hop with hop | hop
    · exact hc (hnil ▸ opPath_mem_createOps hop)
    · exact hp (hnil ▸ opPath_mem_copyOps hop)
  · exact hr (hnil ▸ opPath_mem_removeOps hop)

/-- Witness for `root_never_acted_on` at a concrete pair of listings. -/
theorem root_never_acted_on_witness :
    (∀ e ∈ ([(["a"], false)] : FsListing), e.1 ≠ []) ∧
    (∀ e ∈ ([(["b"], true)] : FsListing), e.1 ≠ []) ∧
    ∀ op ∈ passOps (fun _ => false) (fun _ => true)
        (synchronize_actions (enumerateRel [(["a"], false)])
          (enumerateRel [(["b"], true)])),
      opPath op ≠ [] :=
  ⟨by decide, by decide,
    (root_never_acted_on [(["a"], false)] [(["b"], true)] (fun _ => false) (fun _ => true)
      (by decide) (by decide)).2.2.2.2.2.2.2⟩

/-! ## The log line sequence (C2) -/

/-- C2 counterexample: The log does not have the claimed shape
"created, then depth-1 copied, then removed": with source `{d, d/x}` and
destination `{d, d/x, old}`, the code's log (dict iteration order of
`log_and_print`, lines 107-114) lists the `Removed old` line before the
`Copied` lines and contains a line for the depth-2 path `d/x`, while the
claimed shape has `Copied d` first and no `d/x` line. -/
theorem log_order_differs_from_claim :
    logLines "t" (synchronize_actions [["d"], ["d", "x"]] [["d"], ["d", "x"], ["old"]]) ≠
      specLogLines "t" (synchronize_actions [["d"], ["d", "x"]] [["d"], ["d", "x"], ["old"]]) := by
  decide

/-- C2 amended: For every pass, the log contains one line per action
entry, grouped in the `actions` dict insertion order: all `created` lines
first, then all `removed` lines, then all `copied` lines — where the copied
group covers the *full* copied list (depth > 1 included), not the depth-1
subset applied in the copy phase, and the group order is `created, removed,
copied`, not the application order `created, copied, removed`. -/
theorem logLines_grouped (now : String) (a : Actions) :
    logLines now a =
      a.created.map (actionLine now "Created") ++
        a.removed.map (actionLine now "Removed") ++
          a.copied.map (actionLine now "Copied") ∧
    (logLines now a).length = a.created.length + a.removed.length + a.copied.length := by
  refine ⟨rfl, ?_⟩
  simp [logLines, Nat.add_assoc]

/-! ## Log truncation (C8) -/

theorem foldl_writeLine (file l : List String) :
    l.foldl writeLine file = file ++ l := by
  induction l generalizing file with
  | nil => simp
  | cons a l ih => simp [writeLine, ih]

/-- C8: `log_and_print_actions` discards the previous content of
`sync_log.txt` before writing (the `open(..., "w")` of lines 118-119), so
after two consecutive passes the file holds exactly the second pass's lines;
and within one pass each line is appended to the file as it is recorded
(the `open(..., "a")` of line 125 plus `f.write`). -/
theorem log_truncation (prev : List String) (now₁ now₂ : String) (a₁ a₂ : Actions) :
    log_and_print_actions now₂ a₂ (log_and_print_actions now₁ a₁ prev) =
      logLines now₂ a₂ ∧
    ∀ file : List String, log_and_print now₂ a₂ file = file ++ logLines now₂ a₂ := by
  constructor
  · show log_and_print now₂ a₂ [] = logLines now₂ a₂
    rw [log_and_print, foldl_writeLine, List.nil_append]
  · intro file
    rw [log_and_print, foldl_writeLine]

/-! ## Depth-ordered application (C4, C5, C6) -/

instance : IsTotal Path (fun a b => pathDepth a ≤ pathDepth b) :=
  ⟨fun a b => Nat.le_total (pathDepth a) (pathDepth b)⟩

instance : IsTrans Path (fun a b => pathDepth a ≤ pathDepth b) :=
  ⟨fun _ _ _ h h₂ => Nat.le_trans h h₂⟩

instance : IsTotal Path (fun a b => pathDepth b ≤ pathDepth a) :=
  ⟨fun a b => Nat.le_total (pathDepth b) (pathDepth a)⟩

instance : IsTrans Path (fun a b => pathDepth b ≤ pathDepth a) :=
  ⟨fun _ _ _ h h₂ => Nat.le_trans h₂ h⟩

theorem sortAsc_sorted (l : List Path) :
    List.Sorted (fun a b => pathDepth a ≤ pathDepth b) (sortAsc l) :=
  List.sorted_insertionSort _ l

theorem sortDesc_sorted (l : List Path) :
    List.Sorted (fun a b => pathDepth b ≤ pathDepth a) (sortDesc l) :=
  List.sorted_insertionSort _ l

/-- C4: For every pass, the created paths are applied in ascending order
of path depth (the `sorted(..., key=lambda fp: len(Path(fp).parents))` of
lines 52-53): the applied sequence is a depth-sorted permutation of
`created`; in it an entry naming an ancestor directory always precedes any
entry nested inside it; and each position issues `os.makedirs` when the
source entry is a directory and the metadata-preserving `shutil.copy2`
otherwise (lines 60-63). -/
theorem created_applied_in_depth_order (isDirSrc : Path → Bool) (created : List Path) :
    (sortAsc created).Perm created ∧
    List.Sorted (fun a b => pathDepth a ≤ pathDepth b) (sortAsc created) ∧
    (∀ i j : Fin (sortAsc created).length,
        isAncestorOrSelf ((sortAsc created).get i) ((sortAsc created).get j) = true →
        (sortAsc created).get i ≠ (sortAsc created).get j →
        (i : Nat) < (j : Nat)) ∧
    createOps isDirSrc created =
      (sortAsc created).map
        (fun p => if isDirSrc p then FsOp.makedirs p else FsOp.copy2 p) := by
  refine ⟨sortAsc_perm created, sortAsc_sorted created, ?_, rfl⟩
  intro i j hanc hne
  have hdepth : pathDepth ((sortAsc created).get i) < pathDepth ((sortAsc created).get j) :=
    length_lt_of_proper_ancestor hanc hne
  rcases Nat.lt_trichotomy (i : Nat) (j : Nat) with h | h | h
  · exact h
  · exact absurd (congrArg (sortAsc created).get (Fin.ext h)) hne
  · have hle := (sortAsc_sorted created).rel_get_of_lt (Fin.lt_def.2 h)
    simp only [] at hle
    omega

/-- Witness for `created_applied_in_depth_order` at a concrete created list. -/
theorem created_applied_in_depth_order_witness :
    (sortAsc [["b", "c"], ["a"], ["b"]]).Perm [["b", "c"], ["a"], ["b"]] ∧
    List.Sorted (fun a b => pathDepth a ≤ pathDepth b) (sortAsc [["b", "c"], ["a"], ["b"]]) ∧
    (∀ i j : Fin (sortAsc [["b", "c"], ["a"], ["b"]]).length,
        isAncestorOrSelf ((sortAsc [["b", "c"], ["a"], ["b"]]).get i)
            ((sortAsc [["b", "c"], ["a"], ["b"]]).get j) = true →
        (sortAsc [["b", "c"], ["a"], ["b"]]).get i ≠
            (sortAsc [["b", "c"], ["a"], ["b"]]).get j →
        (i : Nat) < (j : Nat)) ∧
    createOps (fun p => p == ["b"]) [["b", "c"], ["a"], ["b"]] =
      (sortAsc [["b", "c"], ["a"], ["b"]]).map
        (fun p => if p == ["b"] then FsOp.makedirs p else FsOp.copy2 p) :=
  created_applied_in_depth_order (fun p => p == ["b"]) [["b", "c"], ["a"], ["b"]]

/-- C6: For every pass, the copy phase applies exactly the copied paths
of depth 1 (the generator filter of lines 69-70): every issued operation
targets a depth-1 copied path; a depth-1 source directory is applied as the
recursive merging overwrite `shutil.copytree(..., dirs_exist_ok=True)` and a
depth-1 file as the same metadata-preserving `shutil.copy2` used by the
create phase (lines 77-80); and no copied path of depth ≠ 1 is ever
individually applied. -/
theorem copied_depth_one_only (isDirSrc : Path → Bool) (copied : List Path) :
    (∀ op ∈ copyOps isDirSrc copied,
        opPath op ∈ copied ∧ pathDepth (opPath op) = 1) ∧
    (∀ p ∈ copied, pathDepth p = 1 → isDirSrc p = true →
        FsOp.copytree p ∈ copyOps isDirSrc copied) ∧
    (∀ p ∈ copied, pathDepth p = 1 → isDirSrc p = false →
        FsOp.copy2 p ∈ copyOps isDirSrc copied) ∧
    (∀ p ∈ copied, pathDepth p ≠ 1 →
        ∀ op ∈ copyOps isDirSrc copied, opPath op ≠ p) := by
  have hmain : ∀ op ∈ copyOps isDirSrc copied,
      opPath op ∈ copied ∧ pathDepth (opPath op) = 1 := by
    intro op hop
    rcases List.mem_map.1 hop with ⟨p, hp, rfl⟩
    rcases List.mem_filter.1 hp with ⟨hpc, hdep⟩
    rw [opPath_ite isDirSrc p FsOp.copytree FsOp.copy2 (fun _ => rfl) (fun _ => rfl)]
    exact ⟨hpc, by simpa using hdep⟩
  refine ⟨hmain, ?_, ?_, ?_⟩
  · intro p hp hdep hdir
    refine List.mem_map.2 ⟨p, List.mem_filter.2 ⟨hp, by simp [hdep]⟩, by simp [hdir]⟩
  · intro p hp hdep hdir
    refine List.mem_map.2 ⟨p, List.mem_filter.2 ⟨hp, by simp [hdep]⟩, by simp [hdir]⟩
  · intro p _ hdep op hop heq
    exact hdep (heq ▸ (hmain op hop).2)

/-- Witness for `copied_depth_one_only` at a concrete copied list. -/
theorem copied_depth_one_only_witness :
    (∀ op ∈ copyOps (fun p => p == ["d"]) [["d"], ["d", "x"], ["f"]],
        opPath op ∈ [["d"], ["d", "x"], ["f"]] ∧ pathDepth (opPath op) = 1) ∧
    (∀ p ∈ [["d"], ["d", "x"], ["f"]], pathDepth p = 1 → (p == ["d"]) = true →
        FsOp.copytree p ∈ copyOps (fun p => p == ["d"]) [["d"], ["d", "x"], ["f"]]) ∧
    (∀ p ∈ [["d"], ["d", "x"], ["f"]], pathDepth p = 1 → (p == ["d"]) = false →
        FsOp.copy2 p ∈ copyOps (fun p => p == ["d"]) [["d"], ["d", "x"], ["f"]]) ∧
    (∀ p ∈ [["d"], ["d", "x"], ["f"]], pathDepth p ≠ 1 →
        ∀ op ∈ copyOps (fun p => p == ["d"]) [["d"], ["d", "x"], ["f"]], opPath op ≠ p) :=
  copied_depth_one_only (fun p => p == ["d"]) [["d"], ["d", "x"], ["f"]]

/-- Concrete destination listing for the C5 counterexample: the file `a`,
the directory `old`, and the hidden file `old/.h` inside it. -/
def fsSyncHiddenEx : FsListing :=
  [(["a"], false), (["old"], true), (["old", ".h"], false)]

/-- Concrete source listing for the C5 counterexample: just the file `a`
(no `old`). -/
def fsOrigHiddenEx : FsListing := [(["a"], false)]

/-- The operation sequence of one pass on the counterexample pair, with the
directory oracles answering as the filesystem would (`old` is the only
directory). -/
def passOpsHiddenEx : List FsOp :=
  passOps (fun _ => false) (fun p => p == ["old"])
    (synchronize_actions (enumerateRel fsOrigHiddenEx) (enumerateRel fsSyncHiddenEx))

/-- C5 counterexample: a removal of a non-empty directory *is* attempted.
With destination content `{a, old/, old/.h}` and source content `{a}`, the
enumeration (which filters hidden names, lines 26-31) sees only
`{a, old}` on the destination side, so `removed = {old}` while `old/.h` —
an existing destination entry strictly inside `old` — is the target of no
operation of the entire pass.  The pass therefore reaches `os.rmdir` on
`old` (line 102) while `old/.h` still exists inside it, and `rmdir` raises
`OSError` (directory not empty): the claim's "no removal of a non-empty
directory is ever attempted" is false of the program. -/
theorem rmdir_nonempty_directory_attempted :
    (["old", ".h"], false) ∈ fsSyncHiddenEx ∧
    isAncestorOrSelf ["old"] ["old", ".h"] = true ∧
    (["old", ".h"] : Path) ≠ ["old"] ∧
    FsOp.rmdir ["old"] ∈ passOpsHiddenEx ∧
    ∀ op ∈ passOpsHiddenEx, opPath op ≠ ["old", ".h"] := by decide

/-- C5 amended: For every pass, the removed paths are applied in descending
order of path depth (the `sorted(..., reverse=True, ...)` of lines 91-92):
the applied sequence is a depth-antitone permutation of `removed`; for every
entry `d` of the sequence, every *enumerated* destination entry strictly
below `d` occurs earlier in the sequence (enumerated children are removed
first) and no enumerated source entry lies strictly below `d` — so among
enumerated entries nothing remains below `d` when `os.rmdir d` runs
(line 102).  The guarantee stops at the enumeration: hidden entries are
invisible to it, and a hidden file inside a removed directory makes the
pass attempt `rmdir` on a non-empty directory
(`rmdir_nonempty_directory_attempted`).  Hypotheses: the source enumeration
is prefix-closed (a filesystem walk lists every ancestor directory of each
entry) and the destination enumeration does not contain the root. -/
theorem removed_applied_deepest_first (relOrig relSync : List Path) (isDirDst : Path → Bool)
    (hS : prefixClosed relOrig) (hroot : [] ∉ relSync) :
    (removedSorted relOrig relSync).Perm (synchronize_actions relOrig relSync).removed ∧
    List.Sorted (fun a b => pathDepth b ≤ pathDepth a) (removedSorted relOrig relSync) ∧
    removeOps isDirDst (synchronize_actions relOrig relSync).removed =
      (removedSorted relOrig relSync).map
        (fun p => if isDirDst p then FsOp.rmdir p else FsOp.remove p) ∧
    ∀ j : Fin (removedSorted relOrig relSync).length, ∀ c,
        isAncestorOrSelf ((removedSorted relOrig relSync).get j) c = true →
        c ≠ (removedSorted relOrig relSync).get j →
        (c ∈ relSync →
          ∃ i : Fin (removedSorted relOrig relSync).length,
            (i : Nat) < (j : Nat) ∧ (removedSorted relOrig relSync).get i = c) ∧
        c ∉ relOrig := by
  refine ⟨sortDesc_perm _, sortDesc_sorted _, rfl, ?_⟩
  intro j c hanc hne
  have hd_mem : (removedSorted relOrig relSync).get j ∈ removedSorted relOrig relSync :=
    List.get_mem _ j.1 j.2
  have hd_rem := (sortDesc_perm (synchronize_actions relOrig relSync).removed).mem_iff.1 hd_mem
  rcases mem_removed.1 hd_rem with ⟨hd_sync, hd_not_orig⟩
  have hd_ne_nil : (removedSorted relOrig relSync).get j ≠ [] :=
    fun h => hroot (h ▸ hd_sync)
  have hdepth : pathDepth ((removedSorted relOrig relSync).get j) < pathDepth c :=
    length_lt_of_proper_ancestor hanc (Ne.symm hne)
  have hc_not_orig : c ∉ relOrig := by
    intro hcS
    apply hd_not_orig
    have htake := take_length_of_ancestor hanc
    have hlen0 : ((removedSorted relOrig relSync).get j).length ≠ 0 :=
      fun h0 => hd_ne_nil (List.length_eq_zero.1 h0)
    exact htake ▸ hS c hcS _ hdepth hlen0
  refine ⟨?_, hc_not_orig⟩
  intro hcD
  have hc_rem : c ∈ (synchronize_actions relOrig relSync).removed :=
    mem_removed.2 ⟨hcD, hc_not_orig⟩
  have hc_rl : c ∈ removedSorted relOrig relSync :=
    (sortDesc_perm _).mem_iff.2 hc_rem
  rcases List.mem_iff_get.1 hc_rl with ⟨i, hieq⟩
  refine ⟨i, ?_, hieq⟩
  rcases Nat.lt_trichotomy (i : Nat) (j : Nat) with h | h | h
  · exact h
  · exact absurd (hieq.symm.trans (congrArg (removedSorted relOrig relSync).get (Fin.ext h)))
      hne
  · have hsorted : List.Sorted (fun a b => pathDepth b ≤ pathDepth a)
        (removedSorted relOrig relSync) := sortDesc_sorted _
    have hle := hsorted.rel_get_of_lt (Fin.lt_def.2 h)
    rw [hieq] at hle
    omega

/-- Witness for `removed_applied_deepest_first` at a concrete pair of
enumerations. -/
theorem removed_applied_deepest_first_witness :
    prefixClosed [["a"]] ∧ ([] : Path) ∉ [["a"], ["old"], ["old", "f"]] ∧
    ∀ j : Fin (removedSorted [["a"]] [["a"], ["old"], ["old", "f"]]).length, ∀ c,
        isAncestorOrSelf ((removedSorted [["a"]] [["a"], ["old"], ["old", "f"]]).get j) c =
            true →
        c ≠ (removedSorted [["a"]] [["a"], ["old"], ["old", "f"]]).get j →
        (c ∈ [["a"], ["old"], ["old", "f"]] →
          ∃ i : Fin (removedSorted [["a"]] [["a"], ["old"], ["old", "f"]]).length,
            (i : Nat) < (j : Nat) ∧
              (removedSorted [["a"]] [["a"], ["old"], ["old", "f"]]).get i = c) ∧
        c ∉ [["a"]] :=
  ⟨by decide, by decide,
    (removed_applied_deepest_first [["a"]] [["a"], ["old"], ["old", "f"]] (fun _ => true)
      (by decide) (by decide)).2.2.2⟩

/-! ## One pass's effect on the destination path set (C7)

The create and copy phases only make paths exist; the remove phase only
deletes paths.  Classifying the primitives accordingly lets the final
destination set be computed phase by phase. -/

/-- Whether a primitive makes paths exist (create/copy phases) as opposed to
deleting one (remove phase). -/
def insOp : FsOp → Bool
  | .makedirs _ => true
  | .copy2 _ => true
  | .copytree _ => true
  | .remove _ => false
  | .rmdir _ => false

/-- The set of paths a creating primitive makes exist. -/
def insSet (src : Finset Path) : FsOp → Finset Path
  | .makedirs p => {p}
  | .copy2 p => {p}
  | .copytree p => insert p (sourceUnder src p)
  | .remove _ => ∅
  | .rmdir _ => ∅

theorem applyOp_ins {src st : Finset Path} {op : FsOp} (h : insOp op = true) :
    applyOp src st op = st ∪ insSet src op := by
  cases op with
  | makedirs p => simp [applyOp, insSet, Finset.insert_eq, Finset.union_comm]
  | copy2 p => simp [applyOp, insSet, Finset.insert_eq, Finset.union_comm]
  | copytree p => rfl
  | remove p => exact absurd h (by simp [insOp])
  | rmdir p => exact absurd h (by simp [insOp])

theorem applyOp_del {src st : Finset Path} {op : FsOp} (h : insOp op = false) :
    applyOp src st op = st.erase (opPath op) := by
  cases op with
  | makedirs p => exact absurd h (by simp [insOp])
  | copy2 p => exact absurd h (by simp [insOp])
  | copytree p => exact absurd h (by simp [insOp])
  | remove p => rfl
  | rmdir p => rfl

theorem runOps_append (src : Finset Path) (l₁ l₂ : List FsOp) (st : Finset Path) :
    runOps src (l₁ ++ l₂) st = runOps src l₂ (runOps src l₁ st) := by
  induction l₁ generalizing st with
  | nil => rfl
  | cons op rest ih => rw [List.cons_append, runOps, runOps, ih]

theorem runOps_insPhase {src : Finset Path} {ops : List FsOp}
    (h : ∀ op ∈ ops, insOp op = true) (st : Finset Path) (x : Path) :
    x ∈ runOps src ops st ↔ x ∈ st ∨ ∃ op ∈ ops, x ∈ insSet src op := by
  induction ops generalizing st with
  | nil => simp [runOps]
  | cons op rest ih =>
    have hop := h op (List.mem_cons_self op rest)
    have hrest : ∀ o ∈ rest, insOp o = true := fun o ho => h o (List.mem_cons_of_mem _ ho)
    rw [runOps, ih hrest, applyOp_ins hop]
    simp only [Finset.mem_union, List.mem_cons]
    constructor
    · rintro (⟨hx | hx⟩ | ⟨o, ho, hxo⟩)
      · exact Or.inl hx
      · exact Or.inr ⟨op, Or.inl rfl, hx⟩
      · exact Or.inr ⟨o, Or.inr ho, hxo⟩
    · rintro (hx | ⟨o, rfl | ho, hxo⟩)
      · exact Or.inl (Or.inl hx)
      · exact Or.inl (Or.inr hxo)
      · exact Or.inr ⟨o, ho, hxo⟩

theorem runOps_delPhase {src : Finset Path} {ops : List FsOp}
    (h : ∀ op ∈ ops, insOp op = false) (st : Finset Path) (x : Path) :
    x ∈ runOps src ops st ↔ x ∈ st ∧ ∀ op ∈ ops, opPath op ≠ x := by
  induction ops generalizing st with
  | nil => simp [runOps]
  | cons op rest ih =>
    have hop := h op (List.mem_cons_self op rest)
    have hrest : ∀ o ∈ rest, insOp o = false := fun o ho => h o (List.mem_cons_of_mem _ ho)
    rw [runOps, ih hrest, applyOp_del hop]
    simp only [Finset.mem_erase, List.mem_cons]
    constructor
    · rintro ⟨⟨hne, hx⟩, hrest'⟩
      refine ⟨hx, ?_⟩
      rintro o (rfl | ho)
      · exact fun heq => hne heq.symm
      · exact hrest' o ho
    · rintro ⟨hx, hall⟩
      exact ⟨⟨fun heq => hall op (Or.inl rfl) heq.symm, hx⟩, fun o ho => hall o (Or.inr ho)⟩

theorem createOps_all_ins (f : Path → Bool) (l : List Path) :
    ∀ op ∈ createOps f l, insOp op = true := by
  intro op hop
  rcases List.mem_map.1 hop with ⟨p, -, rfl⟩
  cases f p <;> simp [insOp]

theorem copyOps_all_ins (f : Path → Bool) (l : List Path) :
    ∀ op ∈ copyOps f l, insOp op = true := by
  intro op hop
  rcases List.mem_map.1 hop with ⟨p, -, rfl⟩
  cases f p <;> simp [insOp]

theorem removeOps_all_del (g : Path → Bool) (l : List Path) :
    ∀ op ∈ removeOps g l, insOp op = false := by
  intro op hop
  rcases List.mem_map.1 hop with ⟨p, -, rfl⟩
  cases g p <;> simp [insOp]

theorem insSet_createOps {f : Path → Bool} {l : List Path} {op : FsOp}
    (h : op ∈ createOps f l) (src : Finset Path) : insSet src op = {opPath op} := by
  rcases List.mem_map.1 h with ⟨p, -, rfl⟩
  cases f p <;> rfl

theorem insSet_copyOps_subset {f : Path → Bool} {l : List Path} {op : FsOp}
    (h : op ∈ copyOps f l) {src : Finset Path} :
    ∀ x ∈ insSet src op, x = opPath op ∨ x ∈ src := by
  rcases List.mem_map.1 h with ⟨p, -, rfl⟩
  intro x hx
  by_cases hfp : f p = true
  · rw [if_pos hfp] at hx ⊢
    simp only [insSet, Finset.mem_insert] at hx
    rcases hx with rfl | hx
    · exact Or.inl rfl
    · exact Or.inr (Finset.mem_filter.1 hx).1
  · rw [if_neg hfp] at hx ⊢
    simp only [insSet, Finset.mem_singleton] at hx
    exact Or.inl hx

theorem createOps_complete {f : Path → Bool} {l : List Path} {p : Path} (h : p ∈ l) :
    ∃ op ∈ createOps f l, opPath op = p := by
  refine ⟨if f p then FsOp.makedirs p else FsOp.copy2 p,
    List.mem_map.2 ⟨p, (sortAsc_perm l).mem_iff.2 h, rfl⟩, ?_⟩
  exact opPath_ite f p FsOp.makedirs FsOp.copy2 (fun _ => rfl) (fun _ => rfl)

theorem removeOps_complete {g : Path → Bool} {l : List Path} {p : Path} (h : p ∈ l) :
    ∃ op ∈ removeOps g l, opPath op = p := by
  refine ⟨if g p then FsOp.rmdir p else FsOp.remove p,
    List.mem_map.2 ⟨p, (sortDesc_perm l).mem_iff.2 h, rfl⟩, ?_⟩
  exact opPath_ite g p FsOp.rmdir FsOp.remove (fun _ => rfl) (fun _ => rfl)

/-- The central convergence fact: one pass makes the glob-visible destination
path set equal to the enumerated source path set, whatever the directory
oracles say. -/
theorem destAfterPass_eq (relOrig relSync : List Path) (isDirSrc isDirDst : Path → Bool) :
    destAfterPass relOrig relSync isDirSrc isDirDst = relOrig.toFinset := by
  ext x
  rw [destAfterPass, passOps, runOps_append, runOps_append,
    runOps_delPhase (removeOps_all_del _ _),
    runOps_insPhase (copyOps_all_ins _ _),
    runOps_insPhase (createOps_all_ins _ _)]
  constructor
  · rintro ⟨hmem, hdel⟩
    by_contra hxS
    rcases hmem with (hD | ⟨op, hop, hins⟩) | ⟨op, hop, hins⟩
    · have hx_rem : x ∈ (synchronize_actions relOrig relSync).removed :=
        mem_removed.2 ⟨List.mem_toFinset.1 hD, fun hx => hxS (List.mem_toFinset.2 hx)⟩
      rcases removeOps_complete (g := isDirDst) hx_rem with ⟨op, hop, hopp⟩
      exact hdel op hop hopp
    · rw [insSet_createOps hop] at hins
      rcases Finset.mem_singleton.1 hins with rfl
      have := opPath_mem_createOps hop
      exact hxS (List.mem_toFinset.2 (mem_created.1 this).1)
    · rcases insSet_copyOps_subset hop _ hins with rfl | hx
      · have := opPath_mem_copyOps hop
        exact hxS (List.mem_toFinset.2 (mem_copied.1 this).1)
      · exact hxS hx
  · intro hxS
    refine ⟨?_, ?_⟩
    · by_cases hD : x ∈ relSync.toFinset
      · exact Or.inl (Or.inl hD)
      · have hx_cr : x ∈ (synchronize_actions relOrig relSync).created :=
          mem_created.2 ⟨List.mem_toFinset.1 hxS, fun hx => hD (List.mem_toFinset.2 hx)⟩
        rcases createOps_complete (f := isDirSrc) hx_cr with ⟨op, hop, hopp⟩
        refine Or.inl (Or.inr ⟨op, hop, ?_⟩)
        rw [insSet_createOps hop, hopp]
        exact Finset.mem_singleton_self x
    · intro op hop heq
      have := opPath_mem_removeOps hop
      rw [heq] at this
      exact (mem_removed.1 this).2 (List.mem_toFinset.1 hxS)

/-- C7: Idempotence of the action computation: after one full pass of
`synchronize_folders`, the destination's enumerated path set equals the
source's, so a second pass with an unchanged source computes an empty
`created` list and an empty `removed` list (the `copied` list may be
non-empty).  `relSync₂` stands for any enumeration of the destination after
the first pass. -/
theorem second_pass_creates_removes_nothing (relOrig relSync relSync₂ : List Path)
    (isDirSrc isDirDst : Path → Bool)
    (h : relSync₂.toFinset = destAfterPass relOrig relSync isDirSrc isDirDst) :
    (synchronize_actions relOrig relSync₂).created = [] ∧
    (synchronize_actions relOrig relSync₂).removed = [] := by
  rw [destAfterPass_eq] at h
  constructor
  · refine List.filter_eq_nil_iff.2 ?_
    intro p hp
    have hpS : p ∈ relOrig := List.mem_dedup.1 hp
    have hp₂ : p ∈ relSync₂ :=
      List.mem_toFinset.1 (h ▸ List.mem_toFinset.2 hpS)
    simp [hp₂]
  · refine List.filter_eq_nil_iff.2 ?_
    intro p hp
    have hp₂ : p ∈ relSync₂ := List.mem_dedup.1 hp
    have hpS : p ∈ relOrig :=
      List.mem_toFinset.1 (h ▸ List.mem_toFinset.2 hp₂ : p ∈ relOrig.toFinset)
    simp [hpS]

/-- Witness for `second_pass_creates_removes_nothing` at concrete
enumerations. -/
theorem second_pass_creates_removes_nothing_witness :
    ([["a"], ["b"]] : List Path).toFinset =
        destAfterPass [["a"], ["b"]] [["b"], ["c"]] (fun _ => false) (fun _ => true) ∧
    (synchronize_actions [["a"], ["b"]] [["a"], ["b"]]).created = [] ∧
    (synchronize_actions [["a"], ["b"]] [["a"], ["b"]]).removed = [] :=
  ⟨by decide,
    second_pass_creates_removes_nothing [["a"], ["b"]] [["b"], ["c"]] [["a"], ["b"]]
      (fun _ => false) (fun _ => true) (by decide)⟩

/-! ## Error propagation (C9) -/

/-- C9: Filesystem errors are neither caught nor retried.  First half:
inside a pass, as soon as one primitive raises, the pass's result is that
very error — every operation after the failing one is skipped, whatever it
is (`synchronize_folders`, lines 22-104, contains no `try`/`except`).
Second half: the scheduling loop runs passes in order and, the first time a
pass raises, the loop's result is that same error — no later pass runs and
nothing retries (`synchronization_loop`, lines 129-140, contains no
`try`/`except` either, so the exception terminates the process). -/
theorem error_aborts_pass_and_loop :
    (∀ (src : Finset Path) (fails : FsOp → Option String) (pre : List FsOp) (op : FsOp)
        (post : List FsOp) (e : String) (st : Finset Path),
        (∀ o ∈ pre, fails o = none) → fails op = some e →
        runOpsE src fails (pre ++ op :: post) st = Except.error e) ∧
    (∀ (passes : Nat → Except String Unit) (k : Nat) (e : String),
        (∀ i, i < k → passes i = Except.ok ()) → passes k = Except.error e →
        ∀ n, k < n → loopRun passes 0 n = Except.error e) := by
  constructor
  · intro src fails pre op post e st hpre hop
    induction pre generalizing st with
    | nil => simp [runOpsE, applyOpE, hop]
    | cons o pre ih =>
      have ho := hpre o (List.mem_cons_self _ _)
      rw [List.cons_append, runOpsE]
      simp only [applyOpE, ho]
      exact ih _ (fun o₂ ho₂ => hpre o₂ (List.mem_cons_of_mem _ ho₂))
  · intro passes k e hok hke n hn
    have key : ∀ m, ∀ j, j ≤ k → k < j + m → loopRun passes j m = Except.error e := by
      intro m
      induction m with
      | zero => intro j h₁ h₂; omega
      | succ m ih =>
        intro j h₁ h₂
        rcases Nat.eq_or_lt_of_le h₁ with rfl | hjk
        · simp [loopRun, hke]
        · have hj : passes j = Except.ok () := hok j hjk
          simp only [loopRun, hj]
          exact ih (j + 1) hjk (by omega)
    exact key n 0 (Nat.zero_le k) (by omega)

/-- A concrete error oracle for the witness: removing the root's path raises
`"boom"`, everything else succeeds. -/
def failsEx : FsOp → Option String :=
  fun op => if op = FsOp.remove [] then some "boom" else none

/-- A concrete pass sequence for the witness: the second pass (index 1)
raises `"boom"`, every other pass succeeds. -/
def passesEx : Nat → Except String Unit :=
  fun i => if i = 1 then Except.error "boom" else Except.ok ()

/-- Witness for `error_aborts_pass_and_loop` at concrete oracles. -/
theorem error_aborts_pass_and_loop_witness :
    (∀ o ∈ [FsOp.makedirs ["a"]], failsEx o = none) ∧
    failsEx (FsOp.remove []) = some "boom" ∧
    runOpsE ∅ failsEx ([FsOp.makedirs ["a"]] ++ FsOp.remove [] :: [FsOp.copy2 ["z"]]) ∅ =
      Except.error "boom" ∧
    (∀ i, i < 1 → passesEx i = Except.ok ()) ∧
    passesEx 1 = Except.error "boom" ∧
    loopRun passesEx 0 3 = Except.error "boom" :=
  ⟨by decide, by decide,
    error_aborts_pass_and_loop.1 ∅ failsEx [FsOp.makedirs ["a"]] (FsOp.remove [])
      [FsOp.copy2 ["z"]] "boom" ∅ (by decide) (by decide),
    fun i hi => by rw [Nat.lt_one_iff.1 hi]; rfl,
    rfl,
    error_aborts_pass_and_loop.2 passesEx 1 "boom"
      (fun i hi => by rw [Nat.lt_one_iff.1 hi]; rfl) rfl 3 (by omega)⟩

end SyncFolders
